import Mathlib

/-!
Verification development for the noticer repository (src/lib.ts and
src/bin/noticer.ts), a CLI that shows developers unseen notices stored as
JSON files and optionally executes commands embedded in a notice body.

The embedding is a shallow one:

* JavaScript strings are modelled as `String` / `List Char`; the string
  primitives used by the source (`split('\n')`, `trim()`, `startsWith`,
  `slice(2)`) are re-implemented structurally over `List Char` so that the
  kernel can evaluate them on concrete inputs.
* The file system visible to lib.ts is a `Store`: the enumeration of the
  notices directory (`getNotices` order) plus the state of the seen.json
  file, which can be absent, corrupt (readJsonSync throws) or a parsed
  JSON object.  A JS object literal is modelled as an insertion-ordered
  association list.
* `Array.prototype.sort` with the comparator
  `(a, b) => new Date(b.date).getTime() - new Date(a.date).getTime()` is a
  stable sort by descending date; it is modelled with
  `List.insertionSort` on the parsed timestamp (`Notice.date : Nat`),
  which places each element before the equal-date elements of the
  already-sorted tail and therefore realises exactly the stable
  descending order of the source.
* Functions that can throw return `Except`; the error value of the
  store-mutating operations carries the store as it is at the moment of
  the throw (reads precede writes in every such operation).
* The interactive-execution flow is modelled as a pure function from an
  environment (TTY availability, the user's answers, the commands' exit
  statuses) to the sequence of observable events; the functions are total
  because every catch in the source swallows the corresponding error.
-/

namespace Noticer

/-! ### JavaScript string primitives -/

/-- Whitespace recognised by the JS `trim()` for the character set the
program manipulates (ASCII whitespace plus NBSP and BOM). -/
def jsIsWhitespace (c : Char) : Bool :=
  c == ' ' || c == '\t' || c == '\n' || c == '\r' ||
  c == '\x0b' || c == '\x0c' || c == '\u00A0' || c == '\uFEFF'

/-- Model of `content.split('\n')`: splits into segments at every newline,
keeping empty segments, so that the empty string yields one empty segment
exactly as in JS. -/
def splitOnNewline : List Char → List (List Char)
  | [] => [[]]
  | c :: rest =>
    if c = '\n' then [] :: splitOnNewline rest
    else
      match splitOnNewline rest with
      | [] => [[c]]
      | seg :: segs => (c :: seg) :: segs

/-- Model of the JS `trim()`: drop leading and trailing whitespace. -/
def jsTrim (l : List Char) : List Char :=
  ((l.dropWhile jsIsWhitespace).reverse.dropWhile jsIsWhitespace).reverse

/-- Model of `trimmed.startsWith('!>')`. -/
def startsWithMarker : List Char → Bool
  | '!' :: '>' :: _ => true
  | _ => false

/-! ### Command extraction (extractCommands, lib.ts lines 175-190) -/

/-- Loop body of `extractCommands`: for each line, trim it; if the trimmed
line starts with the marker, take the rest of the line after the two
marker characters (`slice(2)`), trim it, and keep it when non-empty. -/
def extractCommandsFrom : List (List Char) → List (List Char)
  | [] => []
  | line :: rest =>
    let trimmed := jsTrim line
    if startsWithMarker trimmed then
      let command := jsTrim (trimmed.drop 2)
      if command.isEmpty then extractCommandsFrom rest
      else command :: extractCommandsFrom rest
    else extractCommandsFrom rest

/-- Model of `extractCommands(content)` from lib.ts. -/
def extractCommands (content : String) : List String :=
  (extractCommandsFrom (splitOnNewline content.data)).map (fun l => String.mk l)

/-- Spec-side description of what a single line contributes: the trimmed
remainder after the marker of a line whose trimmed form starts with the
two-character marker, dropped when empty after trimming.  Used only to
compare the implementation against the specification sentence of C2. -/
def commandOfLineSpec (line : List Char) : Option (List Char) :=
  let t := jsTrim line
  if startsWithMarker t then
    let c := jsTrim (t.drop 2)
    if c = [] then none else some c
  else none

/-! ### Data model: notices, the seen map and the store -/

/-- A notice record (lib.ts interface Notice).  The date field of the
source is an ISO-8601 string that is only ever consumed through
`new Date(date).getTime()`; it is modelled directly as that timestamp. -/
structure Notice where
  id : String
  content : String
  author : String
  date : Nat
deriving DecidableEq, Repr

/-- The parsed seen.json object: a JS object literal mapping notice ids to
booleans, modelled as an insertion-ordered association list. -/
abbrev SeenMap := List (String × Bool)

/-- Property read `m[id]` on the seen object: the value of the first entry
with the given key, or undefined (`none`). -/
def lookupVal : SeenMap → String → Option Bool
  | [], _ => none
  | (k, v) :: rest, id => if k = id then some v else lookupVal rest id

/-- JS truthiness of `seenNotices[notice.id]`: true exactly when the entry
exists and holds true (false and undefined are both falsy). -/
def isSeen (m : SeenMap) (id : String) : Bool :=
  (lookupVal m id).getD false

/-- Assignment `seenNotices[noticeId] = true` on a JS object: update the
entry in place when the key exists, append otherwise. -/
def setSeen : SeenMap → String → SeenMap
  | [], id => [(id, true)]
  | (k, v) :: rest, id =>
    if k = id then (k, true) :: rest else (k, v) :: setSeen rest id

/-- State of the seen.json file: missing, present but unparseable
(readJsonSync throws), or present with a parsed object. -/
inductive SeenFile where
  | absent : SeenFile
  | corrupt : SeenFile
  | valid : SeenMap → SeenFile
deriving DecidableEq, Repr

/-- The file system as lib.ts sees it: the notices directory in its
enumeration order (the value of `getNotices`, one Notice per JSON file,
id taken from the file stem) and the seen.json file. -/
structure Store where
  notices : List Notice
  seenFile : SeenFile
deriving DecidableEq, Repr

/-! ### Seen-state operations (lib.ts lines 82-168) -/

/-- Model of `getSeenNotices`: an empty object when the file does not
exist, the parsed object otherwise; a corrupt file throws. -/
def getSeenNotices : SeenFile → Except Unit SeenMap
  | .absent => .ok []
  | .corrupt => .error ()
  | .valid m => .ok m

/-- Model of `saveSeenNotices`: writes the object to seen.json. -/
def saveSeenNotices (s : Store) (m : SeenMap) : Store :=
  { s with seenFile := .valid m }

/-- Model of `markNoticeAsSeen`: read the seen map, set the id to true,
write the map back.  The read happens before any write, so when the read
throws the error carries the unchanged store. -/
def markNoticeAsSeen (s : Store) (id : String) : Except Store Store :=
  match getSeenNotices s.seenFile with
  | .error _ => .error s
  | .ok m => .ok (saveSeenNotices s (setSeen m id))

/-- Model of `getNotices`: the notices in directory-enumeration order. -/
def getNotices (s : Store) : List Notice :=
  s.notices

/-- Descending-date order used by the sort comparator of
`getSortedNotices`. -/
def dateGE (a b : Notice) : Prop :=
  b.date ≤ a.date

instance : DecidableRel dateGE := fun a b => Nat.decLe b.date a.date

/-- Model of `getSortedNotices`: a stable sort of `getNotices` by
descending date (Array.prototype.sort is stable; insertionSort inserts
each element before the equal-date elements of the sorted tail, which are
exactly the equal-date elements originally after it). -/
def getSortedNotices (s : Store) : List Notice :=
  List.insertionSort dateGE (getNotices s)

/-- Model of `getUnseenNotices`: the notices, in `getNotices` order, whose
seen-map value is falsy. -/
def getUnseenNotices (s : Store) : Except Unit (List Notice) :=
  match getSeenNotices s.seenFile with
  | .error e => .error e
  | .ok m => .ok ((getNotices s).filter (fun n => !isSeen m n.id))

/-! ### First run and the run entry point (lib.ts lines 422-470) -/

/-- The marking loop shared by `handleFirstRun` and `run`: call
`markNoticeAsSeen` for each id in order, stopping (with the store at the
throw) when a read fails. -/
def markSeenLoop (s : Store) (ids : List String) : Except Store Store :=
  match ids with
  | [] => .ok s
  | id :: rest =>
    match markNoticeAsSeen s id with
    | .ok s2 => markSeenLoop s2 rest
    | .error e => .error e

/-- Model of `handleFirstRun`: when seen.json does not exist, mark every
notice except the first of the date-descending order as seen. -/
def handleFirstRun (s : Store) : Except Store Store :=
  match s.seenFile with
  | .absent => markSeenLoop s (((getSortedNotices s).drop 1).map Notice.id)
  | _ => .ok s

/-- JS truthiness of the `number` option in `if (number)`: undefined and 0
are falsy. -/
def truthyNumber : Option Nat → Bool
  | none => false
  | some n => n != 0

/-- Model of `run`: the first component is the list of notices displayed
by `printNotices` (in display order), the second the resulting file
system.  All errors are caught at this level, so the function is total;
the displayed notices of an errored branch are those printed before the
throw. -/
def run (s : Store) (number : Option Nat) : List Notice × Store :=
  match handleFirstRun s with
  | .error sF => ([], sF)
  | .ok s1 =>
    if truthyNumber number then
      let toShow := (getSortedNotices s1).take (number.getD 0)
      match markSeenLoop s1 (toShow.map Notice.id) with
      | .ok s2 => (toShow, s2)
      | .error sF => (toShow, sF)
    else
      match getUnseenNotices s1 with
      | .error _ => ([], s1)
      | .ok unseen =>
        match markSeenLoop s1 (unseen.map Notice.id) with
        | .ok s2 => (unseen, s2)
        | .error sF => (unseen, sF)

/-- Model of the show command action in src/bin/noticer.ts (lines 16-22).
The action calls `run(Number.parseInt(COUNT))` when `-n COUNT` is given
and `run(undefined)` otherwise — passing a raw number where `run` expects
a RunOptions object.  Destructuring `const { number, autoExecute = false }`
from a JS number yields `number = undefined`, so `run` receives no count
in either case. -/
def showAction (s : Store) (cliCount : Option Nat) : List Notice × Store :=
  match cliCount with
  | none => run s none
  | some _ => run s none

/-! ### Interactive executor (lib.ts lines 197-268 and 383-417) -/

/-- Events observable from the command-execution flow: a confirmation
prompt being shown, the console.log of `Executing: <command>`, and the
console.error report of a command that exited non-zero. -/
inductive ExecEvent where
  | prompted : String → ExecEvent
  | executing : String → ExecEvent
  | commandFailed : String → ExecEvent
deriving DecidableEq, Repr

/-- Environment of one invocation: whether process.stdin is a TTY, whether
/dev/tty can be opened, the user's answer to each confirmation prompt
(none models a cancelled prompt) and each command's exit status. -/
structure ExecEnv where
  stdinIsTTY : Bool
  devTtyOk : Bool
  respond : String → Option Bool
  exitOk : String → Bool

/-- Model of `getTTYStream` (lib.ts 197-210): null when stdin is already a
TTY, otherwise the reopened controlling terminal when /dev/tty can be
opened, otherwise null (the open failure is caught). -/
def getTTYStream (env : ExecEnv) : Option Unit :=
  if env.stdinIsTTY then none
  else if env.devTtyOk then some () else none

/-- Model of `executeCommand` (lib.ts 217-224): log the Executing message,
run the command synchronously, report a failure without rethrowing. -/
def executeCommand (env : ExecEnv) (cmd : String) : List ExecEvent :=
  ExecEvent.executing cmd ::
    (if env.exitOk cmd then [] else [ExecEvent.commandFailed cmd])

/-- Model of `promptAndExecuteCommand` (lib.ts 233-268).  `inputStream`
records whether the caller passed a stream; otherwise stdin is used only
when it is a TTY, and with no channel at all the command is skipped
silently.  A cancelled prompt is caught and treated as a decline. -/
def promptAndExecuteCommand (env : ExecEnv) (cmd : String)
    (autoExecute : Bool) (inputStream : Bool) : List ExecEvent :=
  if autoExecute then executeCommand env cmd
  else if inputStream || env.stdinIsTTY then
    match env.respond cmd with
    | some true => ExecEvent.prompted cmd :: executeCommand env cmd
    | some false => [ExecEvent.prompted cmd]
    | none => [ExecEvent.prompted cmd]
  else []

/-- Command-execution part of `printNotice` (lib.ts 383-388): extract the
commands of the notice body and resolve them in order. -/
def printNoticeCommands (env : ExecEnv) (autoExecute inputStream : Bool)
    (notice : Notice) : List ExecEvent :=
  (extractCommands notice.content).flatMap
    (fun cmd => promptAndExecuteCommand env cmd autoExecute inputStream)

/-- Model of `printNotices` (lib.ts 397-417): acquire the controlling-
terminal stream once (only when not auto-executing), fall back to stdin
when it is a TTY, then process the notices in order. -/
def printNotices (env : ExecEnv) (autoExecute : Bool)
    (notices : List Notice) : List ExecEvent :=
  let ttyStream := if !autoExecute then getTTYStream env else none
  let inputStream := ttyStream.isSome || env.stdinIsTTY
  notices.flatMap (printNoticeCommands env autoExecute inputStream)

/-! ### Invariant vocabulary for the seen map (claim C8) -/

/-- Every entry of the map holds true. -/
def MapAllTrue (m : SeenMap) : Prop :=
  ∀ p ∈ m, p.2 = true

/-- The seen.json of the store, when it parses, maps every present id to
true. -/
def StoreOK (s : Store) : Prop :=
  ∀ m, s.seenFile = .valid m → MapAllTrue m

/-- The ids present in the persisted seen map of a store. -/
def seenKeys (s : Store) : List String :=
  match s.seenFile with
  | .valid m => m.map Prod.fst
  | _ => []

/-- The append-only contract between an initial and a final store: the
all-true invariant is preserved and no existing entry is removed. -/
def SeenPreserved (s s2 : Store) : Prop :=
  (StoreOK s → StoreOK s2) ∧ ∀ k, k ∈ seenKeys s → k ∈ seenKeys s2

/-- The store an Except-valued operation leaves behind, whether it
returned or threw. -/
def storeOfResult : Except Store Store → Store
  | .ok s => s
  | .error s => s

/-- Spec-side construct for claim C10: the map with every entry for the
given id removed, i.e. the map "as if the entry were absent". -/
def eraseKey : SeenMap → String → SeenMap
  | [], _ => []
  | (k, v) :: rest, id =>
    if k = id then eraseKey rest id else (k, v) :: eraseKey rest id

/-- Derived description (used only in lemma statements): the seen map that
`handleFirstRun` writes on a fresh checkout — every notice of the
date-descending order except the first, marked in order. -/
def firstRunMap (s : Store) : SeenMap :=
  (((getSortedNotices s).drop 1).map Notice.id).foldl setSeen []

/-! ### Concrete example data -/

/-- Example notices and stores used to instantiate the claims. -/
def c1nA : Notice := ⟨"20240101_000000", "hello", "alice", 100⟩

def c1nB : Notice := ⟨"20240102_000000", "world", "bob", 200⟩

/-- A fresh checkout: two notices, no seen.json. -/
def c1Store : Store := ⟨[c1nA, c1nB], .absent⟩

def c3n1 : Notice := ⟨"notice-1", "First notice", "Author 1", 100⟩

def c3n2 : Notice := ⟨"notice-2", "Second notice", "Author 2", 200⟩

def c3n3 : Notice := ⟨"notice-3", "Third notice", "Author 3", 300⟩

/-- The store of the repository's own `-n` test: three notices with
ascending dates and an existing empty seen.json. -/
def c3Store : Store := ⟨[c3n1, c3n2, c3n3], .valid []⟩

/-- A store whose seen.json exists but cannot be parsed. -/
def c7Store : Store := ⟨[⟨"n1", "hello", "ann", 5⟩], .corrupt⟩

/-- A store with one notice and one already-seen id. -/
def c8Store : Store := ⟨[⟨"n2", "body", "bea", 7⟩], .valid [("a", true)]⟩

def c9a : Notice := ⟨"a-old", "old", "ann", 10⟩

def c9b : Notice := ⟨"b-new", "new", "bob", 20⟩

/-- Enumeration order [old, new]: date-descending order would be the
reverse. -/
def c9Store : Store := ⟨[c9a, c9b], .valid []⟩

def c10Notice : Notice := ⟨"x", "content", "cara", 3⟩

def c10Map : SeenMap := [("x", false)]

/-! ### Lemmas about the seen map -/

theorem lookupVal_setSeen_self (m : SeenMap) (id : String) :
    lookupVal (setSeen m id) id = some true := by
  induction m with
  | nil => simp [setSeen, lookupVal]
  | cons p rest ih =>
    obtain ⟨k, v⟩ := p
    by_cases h : k = id
    · simp [setSeen, lookupVal, h]
    · simp [setSeen, lookupVal, h, ih]

theorem lookupVal_setSeen_ne (m : SeenMap) (id k : String) (h : k ≠ id) :
    lookupVal (setSeen m id) k = lookupVal m k := by
  induction m with
  | nil => simp [setSeen, lookupVal, Ne.symm h]
  | cons p rest ih =>
    obtain ⟨k2, v⟩ := p
    by_cases h2 : k2 = id
    · subst h2
      simp [setSeen, lookupVal, Ne.symm h]
    · simp only [setSeen, h2, if_false, lookupVal]
      by_cases h3 : k2 = k
      · simp [h3]
      · simp [h3, ih]

theorem lookupVal_setSeen_true (m : SeenMap) (id k : String)
    (h : lookupVal m k = some true) :
    lookupVal (setSeen m id) k = some true := by
  by_cases hk : k = id
  · subst hk; exact lookupVal_setSeen_self m k
  · rw [lookupVal_setSeen_ne m id k hk]; exact h

theorem lookupVal_foldl_setSeen_true (ids : List String) (m : SeenMap)
    (k : String) (h : lookupVal m k = some true) :
    lookupVal (ids.foldl setSeen m) k = some true := by
  induction ids generalizing m with
  | nil => exact h
  | cons i rest ih => exact ih (setSeen m i) (lookupVal_setSeen_true m i k h)

theorem lookupVal_foldl_setSeen_mem (ids : List String) (m : SeenMap)
    (k : String) (h : k ∈ ids) :
    lookupVal (ids.foldl setSeen m) k = some true := by
  induction ids generalizing m with
  | nil => cases h
  | cons i rest ih =>
    rcases List.mem_cons.1 h with h1 | h1
    · subst h1
      exact lookupVal_foldl_setSeen_true rest (setSeen m k) k
        (lookupVal_setSeen_self m k)
    · exact ih (setSeen m i) h1

theorem lookupVal_foldl_setSeen_not_mem (ids : List String) (m : SeenMap)
    (k : String) (h : k ∉ ids) :
    lookupVal (ids.foldl setSeen m) k = lookupVal m k := by
  induction ids generalizing m with
  | nil => rfl
  | cons i rest ih =>
    have hk : k ≠ i := fun hh => h (hh ▸ List.mem_cons_self i rest)
    have hr : k ∉ rest := fun hh => h (List.mem_cons_of_mem i hh)
    rw [List.foldl_cons, ih (setSeen m i) hr, lookupVal_setSeen_ne m i k hk]

theorem isSeen_eq_true_iff (m : SeenMap) (id : String) :
    isSeen m id = true ↔ lookupVal m id = some true := by
  unfold isSeen
  cases h : lookupVal m id with
  | none => simp
  | some b => cases b <;> simp

/-! ### Lemmas about the marking loop and run -/

theorem markSeenLoop_valid (ids : List String) (s : Store) (m : SeenMap)
    (h : s.seenFile = .valid m) :
    markSeenLoop s ids = .ok { s with seenFile := .valid (ids.foldl setSeen m) } := by
  induction ids generalizing s m with
  | nil =>
    obtain ⟨ns, sf⟩ := s
    simp only at h
    subst h
    rfl
  | cons i rest ih =>
    obtain ⟨ns, sf⟩ := s
    simp only at h
    subst h
    show markSeenLoop ⟨ns, .valid m⟩ (i :: rest) = _
    have step : markNoticeAsSeen ⟨ns, .valid m⟩ i
        = .ok ⟨ns, .valid (setSeen m i)⟩ := rfl
    simp only [markSeenLoop, step]
    exact ih ⟨ns, .valid (setSeen m i)⟩ (setSeen m i) rfl

theorem markSeenLoop_absent_cons (i : String) (rest : List String) (s : Store)
    (h : s.seenFile = .absent) :
    markSeenLoop s (i :: rest)
      = .ok { s with seenFile := .valid ((i :: rest).foldl setSeen []) } := by
  obtain ⟨ns, sf⟩ := s
  simp only at h
  subst h
  show markSeenLoop ⟨ns, .absent⟩ (i :: rest) = _
  have step : markNoticeAsSeen ⟨ns, .absent⟩ i
      = .ok ⟨ns, .valid (setSeen [] i)⟩ := rfl
  simp only [markSeenLoop, step]
  exact markSeenLoop_valid rest ⟨ns, .valid (setSeen [] i)⟩ (setSeen [] i) rfl

theorem run_none_corrupt_eq (s : Store) (h : s.seenFile = .corrupt) :
    run s none = ([], s) := by
  obtain ⟨ns, sf⟩ := s
  simp only at h
  subst h
  rfl

theorem run_none_valid_eq (s : Store) (m : SeenMap) (h : s.seenFile = .valid m) :
    run s none
      = ((getNotices s).filter (fun n => !isSeen m n.id),
         ⟨s.notices, SeenFile.valid
            ((((getNotices s).filter (fun n => !isSeen m n.id)).map Notice.id).foldl
              setSeen m)⟩) := by
  obtain ⟨ns, sf⟩ := s
  simp only at h
  subst h
  show run ⟨ns, .valid m⟩ none = _
  have h1 : handleFirstRun ⟨ns, .valid m⟩ = .ok ⟨ns, .valid m⟩ := rfl
  have h2 : getUnseenNotices ⟨ns, .valid m⟩
      = .ok (ns.filter (fun n => !isSeen m n.id)) := rfl
  simp only [run, h1, truthyNumber, Bool.false_eq_true, if_false, h2,
    markSeenLoop_valid _ ⟨ns, .valid m⟩ m rfl]
  rfl

theorem run_none_absent_nil (s : Store) (h : s.seenFile = .absent)
    (hl : s.notices = []) :
    run s none = ([], s) := by
  obtain ⟨ns, sf⟩ := s
  simp only at h hl
  subst h
  subst hl
  rfl

theorem isSeen_nil (id : String) : isSeen [] id = false := rfl

theorem run_none_absent_eq (s : Store) (h : s.seenFile = .absent)
    (hne : s.notices ≠ []) :
    run s none
      = (s.notices.filter (fun n => !isSeen (firstRunMap s) n.id),
         ⟨s.notices, SeenFile.valid
           (((s.notices.filter (fun n => !isSeen (firstRunMap s) n.id)).map
               Notice.id).foldl setSeen (firstRunMap s))⟩) := by
  obtain ⟨ns, sf⟩ := s
  simp only at h hne
  subst h
  cases hd : ((getSortedNotices ⟨ns, .absent⟩).drop 1).map Notice.id with
  | nil =>
    have hm0 : firstRunMap ⟨ns, .absent⟩ = [] := by
      rw [firstRunMap, hd]; rfl
    have hfr : handleFirstRun ⟨ns, .absent⟩ = .ok ⟨ns, .absent⟩ := by
      rw [handleFirstRun, hd]; rfl
    have hu : ns.filter (fun n => !isSeen ([] : SeenMap) n.id) = ns :=
      List.filter_eq_self.2 (fun a _ => rfl)
    obtain ⟨n0, nrest, hns⟩ := List.exists_cons_of_ne_nil hne
    have hun : getUnseenNotices ⟨ns, .absent⟩
        = .ok (ns.filter (fun n => !isSeen ([] : SeenMap) n.id)) := rfl
    have hcons : ns.map Notice.id = n0.id :: nrest.map Notice.id := by
      rw [hns]; rfl
    have hloop : markSeenLoop ⟨ns, .absent⟩ (ns.map Notice.id)
        = .ok ⟨ns, .valid ((ns.map Notice.id).foldl setSeen [])⟩ := by
      rw [hcons]
      exact markSeenLoop_absent_cons _ _ ⟨ns, .absent⟩ rfl
    simp only [run, hfr, truthyNumber, Bool.false_eq_true, if_false, hun, hm0]
    rw [hu, hloop]
  | cons d ds =>
    have hm0 : firstRunMap ⟨ns, .absent⟩ = (d :: ds).foldl setSeen [] := by
      rw [firstRunMap, hd]
    have hfr : handleFirstRun ⟨ns, .absent⟩
        = .ok ⟨ns, .valid (firstRunMap ⟨ns, .absent⟩)⟩ := by
      rw [handleFirstRun, hd, hm0]
      exact markSeenLoop_absent_cons _ _ ⟨ns, .absent⟩ rfl
    have hun : getUnseenNotices ⟨ns, .valid (firstRunMap ⟨ns, .absent⟩)⟩
        = .ok (ns.filter (fun n => !isSeen (firstRunMap ⟨ns, .absent⟩) n.id)) := rfl
    have hloop : markSeenLoop ⟨ns, .valid (firstRunMap ⟨ns, .absent⟩)⟩
        ((ns.filter (fun n => !isSeen (firstRunMap ⟨ns, .absent⟩) n.id)).map Notice.id)
        = .ok ⟨ns, .valid
            (((ns.filter (fun n => !isSeen (firstRunMap ⟨ns, .absent⟩) n.id)).map
              Notice.id).foldl setSeen (firstRunMap ⟨ns, .absent⟩))⟩ :=
      markSeenLoop_valid _ _ _ rfl
    simp only [run, hfr, truthyNumber, Bool.false_eq_true, if_false, hun, hloop]

/-- Core marking fact: after the unseen notices of a map have been marked,
every notice of the store is mapped to true. -/
theorem unseen_marked (l : List Notice) (m : SeenMap) (n : Notice) (hn : n ∈ l) :
    lookupVal (((l.filter (fun x => !isSeen m x.id)).map Notice.id).foldl setSeen m)
      n.id = some true := by
  by_cases hs : isSeen m n.id = true
  · exact lookupVal_foldl_setSeen_true _ m n.id ((isSeen_eq_true_iff m n.id).1 hs)
  · refine lookupVal_foldl_setSeen_mem _ m n.id ?_
    exact List.mem_map.2 ⟨n, List.mem_filter.2 ⟨hn, by simp [hs]⟩, rfl⟩

/-! ### Claim theorems -/

/-- C4. Idempotence of show: for every store state, after one run/show
invocation with no count argument completes, a second immediate run/show
invocation with no new notices displays no notices. -/
theorem run_show_idempotent (s : Store) :
    (run (run s none).2 none).1 = [] := by
  cases hsf : s.seenFile with
  | corrupt => simp [run_none_corrupt_eq s hsf]
  | valid m =>
    rw [run_none_valid_eq s m hsf]
    rw [run_none_valid_eq _ _ rfl]
    refine List.filter_eq_nil_iff.2 ?_
    intro n hn
    have hseen : isSeen
        ((((getNotices s).filter (fun x => !isSeen m x.id)).map Notice.id).foldl
          setSeen m) n.id = true :=
      (isSeen_eq_true_iff _ _).2 (unseen_marked (getNotices s) m n hn)
    simp [hseen]
  | absent =>
    by_cases hl : s.notices = []
    · simp [run_none_absent_nil s hsf hl]
    · rw [run_none_absent_eq s hsf hl]
      rw [run_none_valid_eq _ _ rfl]
      refine List.filter_eq_nil_iff.2 ?_
      intro n hn
      have hseen : isSeen
          (((s.notices.filter (fun x => !isSeen (firstRunMap s) x.id)).map
            Notice.id).foldl setSeen (firstRunMap s)) n.id = true :=
        (isSeen_eq_true_iff _ _).2 (unseen_marked s.notices (firstRunMap s) n hn)
      simp [hseen]

/-- C7. Corrupt SeenMap handling: an unparseable seen.json makes
getSeenNotices throw, the error propagates through getUnseenNotices and
markNoticeAsSeen with no partial recovery (the store is unchanged at the
throw), while the top-level run entry point catches it and completes
silently: nothing displayed, nothing changed, nothing rethrown. -/
theorem corrupt_seen_map_propagation (s : Store) (id : String)
    (h : s.seenFile = .corrupt) :
    getSeenNotices s.seenFile = .error () ∧
    getUnseenNotices s = .error () ∧
    markNoticeAsSeen s id = .error s ∧
    run s none = ([], s) := by
  refine ⟨?_, ?_, ?_, run_none_corrupt_eq s h⟩
  · rw [h]; rfl
  · simp [getUnseenNotices, h, getSeenNotices]
  · simp [markNoticeAsSeen, h, getSeenNotices]

/-- Witness for C7 at a concrete corrupt store. -/
theorem corrupt_seen_map_propagation_witness :
    getSeenNotices c7Store.seenFile = .error () ∧
    getUnseenNotices c7Store = .error () ∧
    markNoticeAsSeen c7Store "n1" = .error c7Store ∧
    run c7Store none = ([], c7Store) :=
  corrupt_seen_map_propagation c7Store "n1" rfl

/-- C1. First-run reconciliation: with N ≥ 1 notices, no persisted seen
map, and distinct notice ids, one run/show with no count argument displays
exactly the single most-recent notice (the head of the date-descending
order) and afterwards the seen map contains every notice id mapped to
true. -/
theorem firstRun_shows_only_latest (s : Store) (h1 : s.seenFile = .absent)
    (h2 : s.notices ≠ []) (h3 : (s.notices.map Notice.id).Nodup) :
    (run s none).1 = (getSortedNotices s).take 1 ∧
    ∃ m, (run s none).2.seenFile = SeenFile.valid m ∧
      ∀ n ∈ s.notices, lookupVal m n.id = some true := by
  have hperm : (getSortedNotices s).Perm s.notices :=
    List.perm_insertionSort dateGE (getNotices s)
  obtain ⟨hd, tl, hsorted⟩ : ∃ hd tl, getSortedNotices s = hd :: tl := by
    cases hso : getSortedNotices s with
    | nil =>
      rw [hso] at hperm
      exact absurd hperm.symm.eq_nil h2
    | cons a b => exact ⟨a, b, rfl⟩
  have hdrop : ((getSortedNotices s).drop 1).map Notice.id = tl.map Notice.id := by
    rw [hsorted, List.drop_one, List.tail_cons]
  have hm0 : firstRunMap s = (tl.map Notice.id).foldl setSeen [] := by
    rw [firstRunMap, hdrop]
  have hnodups : (hd.id :: tl.map Notice.id).Nodup := by
    have hpermids : ((getSortedNotices s).map Notice.id).Perm
        (s.notices.map Notice.id) := hperm.map Notice.id
    have := hpermids.nodup_iff.2 h3
    rw [hsorted] at this
    simpa using this
  have hnotmem : hd.id ∉ tl.map Notice.id := (List.nodup_cons.1 hnodups).1
  have hm0hd : lookupVal (firstRunMap s) hd.id = none := by
    rw [hm0, lookupVal_foldl_setSeen_not_mem _ _ _ hnotmem]
    rfl
  have hperm2 : s.notices.Perm (hd :: tl) := by
    rw [← hsorted]; exact hperm.symm
  have hpfilter : (hd :: tl).filter (fun n => !isSeen (firstRunMap s) n.id)
      = [hd] := by
    have phd : isSeen (firstRunMap s) hd.id = false := by
      rw [isSeen, hm0hd]; rfl
    have ptl : tl.filter (fun n => !isSeen (firstRunMap s) n.id) = [] := by
      refine List.filter_eq_nil_iff.2 ?_
      intro n hn
      have : isSeen (firstRunMap s) n.id = true := by
        refine (isSeen_eq_true_iff _ _).2 ?_
        rw [hm0]
        exact lookupVal_foldl_setSeen_mem _ _ _ (List.mem_map.2 ⟨n, hn, rfl⟩)
      simp [this]
    simp [List.filter_cons, phd, ptl]
  have hufilter : s.notices.filter (fun n => !isSeen (firstRunMap s) n.id)
      = [hd] := by
    refine List.perm_singleton.1 ?_
    have := hperm2.filter (fun n => !isSeen (firstRunMap s) n.id)
    rw [hpfilter] at this
    exact this
  rw [run_none_absent_eq s h1 h2]
  constructor
  · show s.notices.filter (fun n => !isSeen (firstRunMap s) n.id)
      = (getSortedNotices s).take 1
    rw [hufilter, hsorted]
    rfl
  · refine ⟨((s.notices.filter (fun n => !isSeen (firstRunMap s) n.id)).map
      Notice.id).foldl setSeen (firstRunMap s), rfl, ?_⟩
    intro n hn
    have hfold : ((s.notices.filter (fun n => !isSeen (firstRunMap s) n.id)).map
        Notice.id).foldl setSeen (firstRunMap s) = setSeen (firstRunMap s) hd.id := by
      rw [hufilter]
      rfl
    rw [hfold]
    rcases List.mem_cons.1 (hperm2.subset hn) with hcase | hcase
    · rw [hcase]
      exact lookupVal_setSeen_self _ _
    · have hmem : n.id ∈ tl.map Notice.id := List.mem_map.2 ⟨n, hcase, rfl⟩
      have hne : n.id ≠ hd.id := fun hh => hnotmem (hh ▸ hmem)
      rw [lookupVal_setSeen_ne _ _ _ hne, hm0]
      exact lookupVal_foldl_setSeen_mem _ _ _ hmem

/-- Witness for C1 at a concrete two-notice fresh checkout. -/
theorem firstRun_shows_only_latest_witness :
    (run c1Store none).1 = (getSortedNotices c1Store).take 1 ∧
    ∃ m, (run c1Store none).2.seenFile = SeenFile.valid m ∧
      ∀ n ∈ c1Store.notices, lookupVal m n.id = some true :=
  firstRun_shows_only_latest c1Store rfl (by decide) (by decide)

theorem extractCommandsFrom_eq_filterMap (ls : List (List Char)) :
    extractCommandsFrom ls = ls.filterMap commandOfLineSpec := by
  induction ls with
  | nil => rfl
  | cons line rest ih =>
    simp only [extractCommandsFrom, commandOfLineSpec, List.filterMap_cons]
    by_cases hm : startsWithMarker (jsTrim line) = true
    · simp only [hm, if_true]
      by_cases he : jsTrim ((jsTrim line).drop 2) = []
      · simp [he, List.isEmpty_iff, ih]
      · simp [he, List.isEmpty_iff, ih]
    · simp [hm, ih]

/-- C2. Command extraction: for every content string, extractCommands
returns, in order of appearance, the trimmed remainder after the marker of
exactly those lines whose trimmed form starts with the marker, dropping
commands that are empty after trimming; and the concrete content
"text\n!> echo hi\nmore text\n!x not a command\n!>   \n!> echo two"
yields exactly the commands "echo hi" then "echo two". -/
theorem extractCommands_characterisation :
    (∀ content : String,
      extractCommands content
        = ((splitOnNewline content.data).filterMap commandOfLineSpec).map
            (fun l => String.mk l)) ∧
    extractCommands "text\n!> echo hi\nmore text\n!x not a command\n!>   \n!> echo two"
      = ["echo hi", "echo two"] := by
  constructor
  · intro content
    rw [extractCommands, extractCommandsFrom_eq_filterMap]
  · decide

/-- C3 evaluated at the failing input of the repository's own `-n` test:
three notices with ascending dates and an existing empty seen.json.  The
claim says `show -n 2` displays the two most-recent notices, marks exactly
those two, and leaves the rest untouched.  The CLI wiring passes the raw
parsed count as run's options object, so the destructured count is
undefined and the invocation behaves as a plain `show`: all three notices
are displayed and notice-1 (outside the top two) is marked seen.  The
library-level run with a count of 2 does display only the top two,
isolating the divergence to the bin wiring. -/
theorem show_n_cli_ignores_count :
    (showAction c3Store (some 2)).1 = [c3n1, c3n2, c3n3] ∧
    (showAction c3Store (some 2)).2
      = ⟨[c3n1, c3n2, c3n3],
         SeenFile.valid
           [("notice-1", true), ("notice-2", true), ("notice-3", true)]⟩ ∧
    (run c3Store (some 2)).1 = [c3n3, c3n2] := by
  refine ⟨?_, ?_, ?_⟩ <;> decide

/-- C5. No interactive channel: with auto-execute off, stdin not a TTY and
no controlling terminal available, the whole display flow produces no
events at all — no prompt, no Executing message, no failure report — for
every notice list, every answer oracle and every exit oracle; the skip is
silent and total (no error is raised). -/
theorem no_interactive_channel_no_execution
    (respond : String → Option Bool) (exitOk : String → Bool)
    (notices : List Notice) :
    printNotices ⟨false, false, respond, exitOk⟩ false notices = [] := by
  simp [printNotices, getTTYStream, printNoticeCommands, promptAndExecuteCommand]

/-- C6. Auto-execute mode: for every environment and notice list, every
extracted command is run in extraction order without prompting, each
preceded by an Executing message, and a failing command contributes only a
failure report — the remaining commands still run and nothing is raised to
the caller (the event function is total). -/
theorem auto_execute_runs_all_commands (env : ExecEnv) (notices : List Notice) :
    printNotices env true notices
      = (notices.flatMap (fun n => extractCommands n.content)).flatMap
          (fun cmd => ExecEvent.executing cmd ::
            (if env.exitOk cmd then [] else [ExecEvent.commandFailed cmd])) := by
  rw [List.flatMap_assoc]
  show notices.flatMap _ = notices.flatMap _
  congr 1

/-- C9 (implicit). getUnseenNotices applies no date sorting: its result is
always a sublist of the raw enumeration order of getNotices; on the
concrete two-notice store whose enumeration order is ascending by date the
unseen notices come back ascending even though getSortedNotices orders
them descending. -/
theorem unseen_keeps_enumeration_order :
    (∀ (s : Store) (u : List Notice), getUnseenNotices s = .ok u
        → u.Sublist (getNotices s)) ∧
    getUnseenNotices c9Store = .ok [c9a, c9b] ∧
    getSortedNotices c9Store = [c9b, c9a] := by
  refine ⟨?_, rfl, by decide⟩
  intro s u hu
  rw [getUnseenNotices] at hu
  cases hg : getSeenNotices s.seenFile with
  | error e => rw [hg] at hu; cases hu
  | ok m =>
    rw [hg] at hu
    injection hu with hu2
    rw [← hu2]
    exact List.filter_sublist _

/-- Witness for C9: the general sublist fact applied at the concrete
store. -/
theorem unseen_keeps_enumeration_order_witness :
    ([c9a, c9b] : List Notice).Sublist (getNotices c9Store) :=
  unseen_keeps_enumeration_order.1 c9Store [c9a, c9b] rfl

theorem lookupVal_eraseKey_self (m : SeenMap) (id : String) :
    lookupVal (eraseKey m id) id = none := by
  induction m with
  | nil => rfl
  | cons p rest ih =>
    obtain ⟨k, v⟩ := p
    by_cases h : k = id
    · simp [eraseKey, h, ih]
    · simp [eraseKey, lookupVal, h, ih]

theorem lookupVal_eraseKey_ne (m : SeenMap) (id k : String) (h : k ≠ id) :
    lookupVal (eraseKey m id) k = lookupVal m k := by
  induction m with
  | nil => rfl
  | cons p rest ih =>
    obtain ⟨k2, v⟩ := p
    by_cases h2 : k2 = id
    · subst h2
      simp [eraseKey, lookupVal, Ne.symm h, ih]
    · simp only [eraseKey, h2, if_false, lookupVal]
      by_cases h3 : k2 = k
      · simp [h3]
      · simp [h3, ih]

/-- C10 (implicit). A seen-map entry holding false behaves exactly as an
absent entry: getUnseenNotices returns the same notices for a store whose
map has the id mapped to false and for the store with every entry of that
id removed. -/
theorem false_entry_treated_as_unseen (notices : List Notice) (m : SeenMap)
    (id : String) (h : lookupVal m id = some false) :
    getUnseenNotices ⟨notices, .valid m⟩
      = getUnseenNotices ⟨notices, .valid (eraseKey m id)⟩ := by
  show Except.ok _ = Except.ok _
  congr 1
  refine List.filter_congr ?_
  intro n _
  by_cases hk : n.id = id
  · rw [hk]
    have ha : isSeen m id = false := by rw [isSeen, h]; rfl
    have hb : isSeen (eraseKey m id) id = false := by
      rw [isSeen, lookupVal_eraseKey_self]; rfl
    rw [ha, hb]
  · rw [isSeen, isSeen, lookupVal_eraseKey_ne m id n.id hk]

/-- Witness for C10 at a concrete one-notice store with a false entry. -/
theorem false_entry_treated_as_unseen_witness :
    getUnseenNotices ⟨[c10Notice], .valid c10Map⟩
      = getUnseenNotices ⟨[c10Notice], .valid (eraseKey c10Map "x")⟩ :=
  false_entry_treated_as_unseen [c10Notice] c10Map "x" (by decide)

theorem mapAllTrue_setSeen (m : SeenMap) (id : String) (h : MapAllTrue m) :
    MapAllTrue (setSeen m id) := by
  induction m with
  | nil =>
    intro p hp
    simp only [setSeen, List.mem_singleton] at hp
    rw [hp]
  | cons q rest ih =>
    obtain ⟨k, v⟩ := q
    have hrest : MapAllTrue rest := fun p hp => h p (List.mem_cons_of_mem _ hp)
    by_cases hk : k = id
    · intro p hp
      simp only [setSeen, hk, if_true] at hp
      rcases List.mem_cons.1 hp with h1 | h1
      · rw [h1]
      · exact hrest p h1
    · intro p hp
      simp only [setSeen, hk, if_false] at hp
      rcases List.mem_cons.1 hp with h1 | h1
      · rw [h1]
        exact h (k, v) (List.mem_cons_self _ _)
      · exact ih hrest p h1

theorem keys_setSeen (m : SeenMap) (id k : String) (h : k ∈ m.map Prod.fst) :
    k ∈ (setSeen m id).map Prod.fst := by
  induction m with
  | nil => cases h
  | cons q rest ih =>
    obtain ⟨k2, v⟩ := q
    by_cases hk : k2 = id
    · simpa [setSeen, hk] using h
    · rcases List.mem_cons.1 h with h1 | h1
      · simp [setSeen, hk, h1]
      · simp only [setSeen, hk, if_false, List.map_cons, List.mem_cons]
        exact Or.inr (ih h1)

theorem seenPreserved_refl (s : Store) : SeenPreserved s s :=
  ⟨fun h => h, fun _ hk => hk⟩

theorem seenPreserved_trans (a b c : Store) (h1 : SeenPreserved a b)
    (h2 : SeenPreserved b c) : SeenPreserved a c :=
  ⟨fun h => h2.1 (h1.1 h), fun k hk => h2.2 k (h1.2 k hk)⟩

theorem markNoticeAsSeen_preserves (s : Store) (id : String) :
    SeenPreserved s (storeOfResult (markNoticeAsSeen s id)) := by
  obtain ⟨ns, sf⟩ := s
  cases sf with
  | corrupt => exact seenPreserved_refl _
  | absent =>
    constructor
    · intro _ m hm
      simp only [markNoticeAsSeen, getSeenNotices, saveSeenNotices,
        storeOfResult] at hm
      cases hm
      intro p hp
      simp only [setSeen, List.mem_singleton] at hp
      rw [hp]
    · intro k hk
      simp only [seenKeys] at hk
      cases hk
  | valid m0 =>
    constructor
    · intro hOK m hm
      simp only [markNoticeAsSeen, getSeenNotices, saveSeenNotices,
        storeOfResult] at hm
      cases hm
      exact mapAllTrue_setSeen m0 id (hOK m0 rfl)
    · intro k hk
      simp only [seenKeys] at hk ⊢
      exact keys_setSeen m0 id k hk

theorem markSeenLoop_preserves (ids : List String) (s : Store) :
    SeenPreserved s (storeOfResult (markSeenLoop s ids)) := by
  induction ids generalizing s with
  | nil => exact seenPreserved_refl s
  | cons i rest ih =>
    cases hm : markNoticeAsSeen s i with
    | ok s2 =>
      have h1 : SeenPreserved s s2 := by
        have := markNoticeAsSeen_preserves s i
        rw [hm] at this
        exact this
      have hloop : markSeenLoop s (i :: rest) = markSeenLoop s2 rest := by
        rw [markSeenLoop, hm]
      rw [hloop]
      exact seenPreserved_trans s s2 _ h1 (ih s2)
    | error e =>
      have he : e = s := by
        rw [markNoticeAsSeen] at hm
        cases hg : getSeenNotices s.seenFile with
        | ok m => rw [hg] at hm; cases hm
        | error u =>
          rw [hg] at hm
          injection hm with h2
          exact h2.symm
      have hloop : markSeenLoop s (i :: rest) = .error e := by
        rw [markSeenLoop, hm]
      rw [hloop, he]
      exact seenPreserved_refl s

theorem handleFirstRun_preserves (s : Store) :
    SeenPreserved s (storeOfResult (handleFirstRun s)) := by
  obtain ⟨ns, sf⟩ := s
  cases sf with
  | absent => exact markSeenLoop_preserves _ _
  | corrupt => exact seenPreserved_refl _
  | valid m => exact seenPreserved_refl _

theorem run_preserves (s : Store) (number : Option Nat) :
    SeenPreserved s (run s number).2 := by
  cases hfr : handleFirstRun s with
  | error sF =>
    have h1 := handleFirstRun_preserves s
    rw [hfr] at h1
    simp only [run, hfr]
    exact h1
  | ok s1 =>
    have h1 : SeenPreserved s s1 := by
      have := handleFirstRun_preserves s
      rw [hfr] at this
      exact this
    simp only [run, hfr]
    by_cases ht : truthyNumber number = true
    · simp only [ht, if_true]
      cases hl : markSeenLoop s1 ((getSortedNotices s1).take (number.getD 0)
          |>.map Notice.id) with
      | ok s2 =>
        have := markSeenLoop_preserves
          (((getSortedNotices s1).take (number.getD 0)).map Notice.id) s1
        rw [hl] at this
        exact seenPreserved_trans s s1 s2 h1 this
      | error sF =>
        have := markSeenLoop_preserves
          (((getSortedNotices s1).take (number.getD 0)).map Notice.id) s1
        rw [hl] at this
        exact seenPreserved_trans s s1 sF h1 this
    · rw [if_neg ht]
      cases hu : getUnseenNotices s1 with
      | error e => exact h1
      | ok u =>
        show SeenPreserved s
          (match markSeenLoop s1 (u.map Notice.id) with
            | Except.ok s2 => (u, s2)
            | Except.error s2 => (u, s2)).2
        cases hl : markSeenLoop s1 (u.map Notice.id) with
        | ok s2 =>
          have := markSeenLoop_preserves (u.map Notice.id) s1
          rw [hl] at this
          exact seenPreserved_trans s s1 s2 h1 this
        | error sF =>
          have := markSeenLoop_preserves (u.map Notice.id) s1
          rw [hl] at this
          exact seenPreserved_trans s s1 sF h1 this

/-- C8. SeenMap append-only invariant: each operation that writes the seen
map — markNoticeAsSeen, handleFirstRun and run (whether it returns or
throws) — preserves the property that every id present in the map is
mapped to true, and never removes an existing entry. -/
theorem seen_map_append_only (s : Store) (id : String) (number : Option Nat) :
    SeenPreserved s (storeOfResult (markNoticeAsSeen s id)) ∧
    SeenPreserved s (storeOfResult (handleFirstRun s)) ∧
    SeenPreserved s (run s number).2 :=
  ⟨markNoticeAsSeen_preserves s id, handleFirstRun_preserves s,
    run_preserves s number⟩

/-- Witness for C8: the already-present id "a" survives a full run on a
concrete store. -/
theorem seen_map_append_only_witness :
    "a" ∈ seenKeys (run c8Store none).2 :=
  (seen_map_append_only c8Store "b" none).2.2.2 "a" (by decide)

end Noticer
